import Mathlib

/-!
Shallow embedding of `src/model.py` (Genetic-Algorithms-on-CNNs).

The file embeds the two classes of the source:

* `ConvolutionBlock` — convolution (3x3 kernel, stride 1, internal padding 1)
  preceded by an explicit TensorFlow-style SAME-padding step, followed by
  batch normalization and ReLU.  At the shape level the block maps a rank-4
  shape `[n, c, h, w]` to `[n, c_out, h+2, w+2]`, raising on wrong rank or a
  channel mismatch.
* `ModelFromDecoding` — decodes an encoding string (tokens separated by `-`)
  into a layer list (`_decode`) and evaluates the resulting stack followed by
  flatten / dense projection to 10 classes / ReLU (`forward`).

Tensors are modelled by their shapes (`List Nat`) for the shape claims and by
rational-valued index functions for the value claim; machine floats are
idealized as `ℚ`.  Python exceptions become `Except` / error options.
-/

set_option autoImplicit false

namespace GAC

/-- Python `str.split` with a single-character separator, on the character
list of the string: splits at every occurrence of `sep`; the empty string
yields the single empty token, and adjacent separators yield empty tokens,
exactly as in CPython. -/
def splitOnChar (sep : Char) : List Char → List (List Char)
  | [] => [[]]
  | c :: rest =>
    let r := splitOnChar sep rest
    if c = sep then [] :: r
    else
      match r with
      | [] => [[c]]
      | seg :: segs => (c :: seg) :: segs

/-- Value of a list of decimal digit characters, most significant first. -/
def digitsVal (cs : List Char) : Nat :=
  cs.foldl (fun a c => 10 * a + (c.toNat - 48)) 0

/-- Every character is a decimal digit. -/
def allDigits (cs : List Char) : Bool :=
  cs.all (fun c => c.isDigit)

/-- Models Python's built-in `int(token)` on the token strings arising in
`_decode`: an optional sign followed by one or more decimal digits
(surrounding whitespace and underscore digit grouping, which CPython also
accepts, are not modelled; the tokens here never contain them). -/
def pyInt? (cs : List Char) : Option Int :=
  let sign : Int := match cs with
    | '-' :: _ => -1
    | _ => 1
  let ds : List Char := match cs with
    | '+' :: t => t
    | '-' :: t => t
    | t => t
  if ds ≠ [] ∧ allDigits ds then some (sign * (digitsVal ds : Int)) else none

/-- Models Python's built-in `float(token)` on decimal tokens: an optional
sign, digits, an optional decimal point and fraction digits, with at least
one digit overall; the value is the exact rational.  (Exponent notation,
`inf`/`nan` and underscores are not modelled; `_decode` only reaches `float`
on tokens containing a `.`.) -/
def pyFloat? (cs : List Char) : Option ℚ :=
  let sign : ℚ := match cs with
    | '-' :: _ => -1
    | _ => 1
  let rest : List Char := match cs with
    | '+' :: t => t
    | '-' :: t => t
    | t => t
  let intDs := rest.takeWhile (fun c => c ≠ '.')
  let rest2 := rest.dropWhile (fun c => c ≠ '.')
  match rest2 with
  | '.' :: fracDs =>
    if allDigits intDs ∧ allDigits fracDs ∧ (intDs ≠ [] ∨ fracDs ≠ []) then
      some (sign * ((digitsVal intDs : ℚ) +
        (digitsVal fracDs : ℚ) / (10 : ℚ) ^ fracDs.length))
    else none
  | _ =>
    if rest ≠ [] ∧ allDigits rest then some (sign * (digitsVal rest : ℚ))
    else none

/-- Pooling kinds of `_decode`: `nn.MaxPool2d` vs `nn.AvgPool2d`. -/
inductive PoolKind where
  | MAX
  | AVG
  deriving DecidableEq

/-- The `ConvolutionBlock` module of the source, by its structural
configuration: input and output channel counts (Python ints).  The device
tag, an opaque passthrough, and the learned parameters (external per the
spec) are not part of the structural state. -/
structure ConvolutionBlock where
  c_in : Int
  c_out : Int
  deriving DecidableEq

/-- Fixed filter size of every `ConvolutionBlock` (`self.filter_size`). -/
def filter_size : Nat × Nat := (3, 3)

/-- Fixed convolution stride of every `ConvolutionBlock` (`self.conv_stride`). -/
def conv_stride : Nat × Nat := (1, 1)

/-- Fixed pooling kernel of `ModelFromDecoding` (`self.kernel_size = (2, 2)`). -/
def kernel_size : Nat × Nat := (2, 2)

/-- Fixed pooling stride of `ModelFromDecoding` (`self.pool_stride = (2, 2)`). -/
def pool_stride : Nat × Nat := (2, 2)

/-- A decoded layer: either a `ConvolutionBlock` or a pooling layer with its
kernel, stride and padding configuration. -/
inductive Layer where
  | conv (block : ConvolutionBlock)
  | pool (kind : PoolKind) (kernel stride pad : Nat × Nat)
  deriving DecidableEq

/-- Errors of the tensor pipeline, following the spec's taxonomy:
`shapeError` for a tensor whose rank breaks an operation (the unpacking
`in_height, in_width = x.shape[2:]`, or indexing `x.shape[3]`),
`channelMismatch` for an input whose channel count differs from a block's
configured `c_in`, and `viewError` for a failing `x.view(-1, dim)`. -/
inductive Err where
  | shapeError
  | channelMismatch
  | viewError
  deriving DecidableEq

/-- Decode failure: the token is neither a valid int nor a valid float
literal (Python raises `ValueError` from `int(...)` or `float(...)`). -/
inductive DecodeError where
  | malformedToken (t : List Char)
  deriving DecidableEq

/-- Embeds the per-axis total padding of `ConvolutionBlock.padding`
(lines 49-60): with the hard-coded `filter = 3` and `stride = 1` of that
method, `pad_along = max(3 - 1, 0)` when `S % 1 == 0` and
`max(3 - S % 1, 0)` otherwise, computed over Python ints. -/
def pad_along (S : Nat) : Int :=
  let stride : Int := 1
  let filter : Int := 3
  if (S : Int) % stride = 0 then max (filter - stride) 0
  else max (filter - (S : Int) % stride) 0

/-- The `(pad_before, pad_after)` split of `ConvolutionBlock.padding`
(lines 64-67): `pad_top = pad_along // 2`, `pad_bottom = pad_along - pad_top`
(identically for left/right). -/
def padSplit (S : Nat) : Int × Int :=
  let t := pad_along S
  (t / 2, t - t / 2)

/-- Spatial size per axis after the `F.pad` call of
`ConvolutionBlock.padding`: before-padding plus size plus after-padding. -/
def paddedSize (S : Nat) : Nat :=
  ((padSplit S).1 + (S : Int) + (padSplit S).2).toNat

/-- Output spatial size per axis of a 2-D convolution, the documented
`nn.Conv2d` shape law: `floor((S + 2*padding - kernel) / stride) + 1`. -/
def conv2dOutDim (S pad k stride : Nat) : Nat :=
  (S + 2 * pad - k) / stride + 1

/-- Output spatial size per axis of a 2-D pooling layer, the documented
`nn.MaxPool2d` / `nn.AvgPool2d` shape law:
`floor((S + 2*padding - kernel) / stride) + 1`. -/
def pool2dOutDim (S pad k stride : Nat) : Nat :=
  (S + 2 * pad - k) / stride + 1

/-- Spatial size per axis produced by `ConvolutionBlock.forward`: the
explicit SAME-padding step followed by the 3x3 / stride-1 convolution with
its internal padding of 1 (line 33-34: `nn.Conv2d(c_in, c_out, (3,3), (1,1), 1)`). -/
def convBlockOutSpatial (S : Nat) : Nat :=
  conv2dOutDim (paddedSize S) 1 filter_size.1 conv_stride.1

/-- Shape-level `ConvolutionBlock.forward`: the unpacking
`in_height, in_width = x.shape[2:]` in `padding` fails unless the input has
exactly 4 dimensions; the convolution fails unless the input channel count
equals `c_in`; otherwise conv / batch-norm / ReLU produce
`[n, c_out, h+2, w+2]` (batch norm and ReLU preserve shape). -/
def ConvolutionBlock.forward (blk : ConvolutionBlock) (s : List Nat) :
    Except Err (List Nat) :=
  match s with
  | [n, c, h, w] =>
    if (c : Int) = blk.c_in then
      .ok [n, blk.c_out.toNat, convBlockOutSpatial h, convBlockOutSpatial w]
    else .error .channelMismatch
  | _ => .error .shapeError

/-- Shape-level evaluation of one decoded layer. Pooling layers in this
model only ever receive rank-4 tensors (they always follow the stem). -/
def Layer.outShape : Layer → List Nat → Except Err (List Nat)
  | .conv blk, s => blk.forward s
  | .pool _ k st p, s =>
    match s with
    | [n, c, h, w] =>
      .ok [n, c, pool2dOutDim h p.1 k.1 st.1, pool2dOutDim w p.2 k.2 st.2]
    | _ => .error .shapeError

/-- Shape-level `nn.Sequential(*self.architecture)`: the layers applied in
list order, propagating the first failure. -/
def netForwardShape : List Layer → List Nat → Except Err (List Nat)
  | [], s => .ok s
  | l :: ls, s =>
    match l.outShape s with
    | .ok s2 => netForwardShape ls s2
    | .error e => .error e

/-- The pooling layer built by `_decode` for a float token of value `v`:
`nn.MaxPool2d(kernel_size, pool_stride, (1,1))` if `v > 0.5`, else
`nn.AvgPool2d(kernel_size, pool_stride, (1,1))`. -/
def poolLayerOf (v : ℚ) : Layer :=
  if 1 / 2 < v then .pool .MAX kernel_size pool_stride (1, 1)
  else .pool .AVG kernel_size pool_stride (1, 1)

/-- The token loop of `ModelFromDecoding._decode` (lines 110-122), with the
mutable state made explicit: `prev` is the running channel count and `acc`
the `self.architecture` list.  Returns the list as it stands when the loop
finishes or an exception is raised, together with the exception if any.
The guard `if m == '-': continue` of line 111 is kept verbatim (it compares
the token to a literal dash). -/
def decodeTokens : List (List Char) → Int → List Layer →
    List Layer × Option DecodeError
  | [], _, acc => (acc, none)
  | m :: rest, prev, acc =>
    if m = ['-'] then decodeTokens rest prev acc
    else if '.' ∈ m then
      match pyFloat? m with
      | some v => decodeTokens rest prev (acc ++ [poolLayerOf v])
      | none => (acc, some (.malformedToken m))
    else
      match pyInt? m with
      | some k => decodeTokens rest k (acc ++ [Layer.conv ⟨prev, k⟩])
      | none => (acc, some (.malformedToken m))

/-- `ModelFromDecoding._decode` run from a fresh model: `self.architecture`
starts empty (line 94), the stem `ConvolutionBlock(3, 16)` is appended
(lines 107-109), then the token loop runs over `self.enc.split('-')`.
Returns the final list state and the raised exception, if any. -/
def runDecode (enc : String) : List Layer × Option DecodeError :=
  decodeTokens (splitOnChar '-' enc.toList) 16 [Layer.conv ⟨3, 16⟩]

/-- Successful decoding: the layer list produced by `_decode` when no token
raises. -/
def decode (enc : String) : Except DecodeError (List Layer) :=
  match runDecode enc with
  | (layers, none) => .ok layers
  | (_, some e) => .error e

/-- Shape-level `ModelFromDecoding.forward` (lines 124-130): run the
sequential stack, read `dim = shape[1] * shape[2] * shape[3]` (requiring a
rank-4 result), reshape via `x.view(-1, dim)` (which requires `dim > 0` and
`dim` dividing the element count, inferring the leading dimension), then the
fresh `nn.Linear(dim, 10)` and `F.relu` give `[inferred, 10]`. -/
def modelForwardShape (layers : List Layer) (s : List Nat) :
    Except Err (List Nat) :=
  match netForwardShape layers s with
  | .error e => .error e
  | .ok xs =>
    match xs with
    | [n, c, h, w] =>
      let dim := c * h * w
      if 0 < dim ∧ dim ∣ n * c * h * w then .ok [n * c * h * w / dim, 10]
      else .error .viewError
    | _ => .error .shapeError

/-- Elementwise rectified linear unit on an idealized scalar. -/
def reluQ (q : ℚ) : ℚ := max 0 q

/-- The flattening `x.view(-1, dim)` of `forward` at the value level: entry
`k` of flattened row `i` of a rank-4 tensor of shape `[·, c, h, w]`, in
row-major (C-contiguous) order. -/
def flatten4 (h w : Nat) (x : Nat → Nat → Nat → Nat → ℚ) (i k : Nat) : ℚ :=
  x i (k / (h * w)) (k % (h * w) / w) (k % w)

/-- Value-level `ModelFromDecoding.forward` after the sequential stack
(lines 126-130): flatten the net's output `netOut` (of shape `[·, c, h, w]`),
apply the dense projection with weights `fcW` and bias `fcB` onto 10 classes,
then ReLU.  The stack's output and the projection's learned parameters are
abstract inputs, external per the spec; `relu` is the final operation and the
constructed `self.softmax` member never appears on this path. -/
def modelForwardValue (fcW : Fin 10 → Nat → ℚ) (fcB : Fin 10 → ℚ)
    (c h w : Nat) (netOut : Nat → Nat → Nat → Nat → ℚ) (i : Nat)
    (j : Fin 10) : ℚ :=
  reluQ (fcB j + ∑ k ∈ Finset.range (c * h * w), fcW j k * flatten4 h w netOut i k)

/-- Pairs `(c_in, c_out)` of the convolution blocks of a layer list, in list
order. -/
def convPairs (ls : List Layer) : List (Int × Int) :=
  ls.filterMap fun l =>
    match l with
    | .conv b => some (b.c_in, b.c_out)
    | .pool _ _ _ _ => none

/-- The channel chain rooted at `c`: pairs `(c, a), (a, b), (b, c'), ...`. -/
def chainFrom (c : Int) : List Int → List (Int × Int)
  | [] => []
  | a :: rest => (c, a) :: chainFrom a rest

/-- Values of the integer tokens of a token list, in order: tokens that the
decoder parses as ints (not the dead dash guard, no decimal point). -/
def intVals (toks : List (List Char)) : List Int :=
  toks.filterMap fun t =>
    if t = ['-'] then none
    else if '.' ∈ t then none
    else pyInt? t

/-- Final channel count of a layer list when its convolution blocks thread
channels correctly starting from `c`; `none` on a mismatch. -/
def chainOut (c : Int) : List Layer → Option Int
  | [] => some c
  | .conv b :: rest => if b.c_in = c then chainOut b.c_out rest else none
  | .pool _ _ _ _ :: rest => chainOut c rest

/-- A layer's convolution output channel count is positive (vacuously true
for pooling layers). -/
def Layer.convOutPositive : Layer → Bool
  | .conv b => decide (0 < b.c_out)
  | .pool _ _ _ _ => true

/-- A token on which the parse of line 112 raises: not the (dead) dash
guard, and neither a valid float (when it contains a dot) nor a valid int. -/
def tokenMalformed (m : List Char) : Bool :=
  if m = ['-'] then false
  else if '.' ∈ m then (pyFloat? m).isNone
  else (pyInt? m).isNone

/-- Decidable equality of `Except` results, for evaluating concrete runs. -/
instance exceptDecEq {ε α : Type} [DecidableEq ε] [DecidableEq α] :
    DecidableEq (Except ε α)
  | .ok x, .ok y =>
    if h : x = y then .isTrue (congrArg _ h)
    else .isFalse (fun hh => h (Except.ok.inj hh))
  | .error e, .error f =>
    if h : e = f then .isTrue (congrArg _ h)
    else .isFalse (fun hh => h (Except.error.inj hh))
  | .ok _, .error _ => .isFalse (fun hh => Except.noConfusion hh)
  | .error _, .ok _ => .isFalse (fun hh => Except.noConfusion hh)

theorem pad_along_eq (S : Nat) : pad_along S = 2 := by
  unfold pad_along
  simp [Int.emod_one]

theorem padSplit_eq (S : Nat) : padSplit S = (1, 1) := by
  unfold padSplit
  rw [pad_along_eq]
  rfl

theorem paddedSize_eq (S : Nat) : paddedSize S = S + 2 := by
  unfold paddedSize
  rw [padSplit_eq]
  omega

theorem convBlockOutSpatial_eq (S : Nat) : convBlockOutSpatial S = S + 2 := by
  unfold convBlockOutSpatial conv2dOutDim
  rw [paddedSize_eq]
  simp [filter_size, conv_stride]

theorem chainOut_poolLayerOf (v : ℚ) (c : Int) (l : List Layer) :
    chainOut c (poolLayerOf v :: l) = chainOut c l := by
  unfold poolLayerOf
  split <;> rfl

theorem decode_ok_run (enc : String) (layers : List Layer)
    (h : decode enc = .ok layers) : runDecode enc = (layers, none) := by
  unfold decode at h
  cases hr : runDecode enc with
  | mk l o =>
    cases o with
    | none =>
      rw [hr] at h
      simp only [Except.ok.injEq] at h
      rw [h]
    | some e =>
      rw [hr] at h
      exact Except.noConfusion h

theorem contains_cons_eq (x c : Char) (l : List Char) :
    (c :: l).contains x = (x == c || l.contains x) := rfl

theorem splitOnChar_not_contains (sep : Char) (cs : List Char) :
    ∀ seg ∈ splitOnChar sep cs, seg.contains sep = false := by
  induction cs with
  | nil =>
    intro seg h
    simp only [splitOnChar, List.mem_singleton] at h
    subst h
    rfl
  | cons c rest ih =>
    intro seg h
    simp only [splitOnChar] at h
    by_cases hc : c = sep
    · rw [if_pos hc] at h
      rcases List.mem_cons.mp h with h1 | h2
      · subst h1; rfl
      · exact ih seg h2
    · rw [if_neg hc] at h
      cases hr : splitOnChar sep rest with
      | nil =>
        rw [hr] at h
        simp only [List.mem_singleton] at h
        subst h
        rw [contains_cons_eq]
        simp only [Bool.or_eq_false_iff, beq_eq_false_iff_ne]
        exact ⟨fun he => hc he.symm, rfl⟩
      | cons seg0 segs =>
        rw [hr] at h
        rcases List.mem_cons.mp h with h1 | h2
        · subst h1
          have h0 : seg0.contains sep = false := ih seg0 (by rw [hr]; exact List.mem_cons_self _ _)
          rw [contains_cons_eq]
          simp only [Bool.or_eq_false_iff, beq_eq_false_iff_ne]
          exact ⟨fun he => hc he.symm, h0⟩
        · exact ih seg (by rw [hr]; exact List.mem_cons_of_mem _ h2)

theorem decodeTokens_extends (toks : List (List Char)) :
    ∀ (prev : Int) (acc : List Layer),
      ∃ extra, (decodeTokens toks prev acc).1 = acc ++ extra := by
  induction toks with
  | nil =>
    intro prev acc
    exact ⟨[], by simp [decodeTokens]⟩
  | cons m rest ih =>
    intro prev acc
    by_cases hdash : m = ['-']
    · simpa [decodeTokens, hdash] using ih prev acc
    · by_cases hdot : '.' ∈ m
      · cases hf : pyFloat? m with
        | some v =>
          obtain ⟨extra, he⟩ := ih prev (acc ++ [poolLayerOf v])
          refine ⟨poolLayerOf v :: extra, ?_⟩
          simp only [decodeTokens, if_neg hdash, if_pos hdot, hf]
          rw [he]
          simp
        | none =>
          refine ⟨[], ?_⟩
          simp [decodeTokens, if_neg hdash, if_pos hdot, hf]
      · cases hi : pyInt? m with
        | some k =>
          obtain ⟨extra, he⟩ := ih k (acc ++ [Layer.conv ⟨prev, k⟩])
          refine ⟨Layer.conv ⟨prev, k⟩ :: extra, ?_⟩
          simp only [decodeTokens, if_neg hdash, if_neg hdot, hi]
          rw [he]
          simp
        | none =>
          refine ⟨[], ?_⟩
          simp [decodeTokens, if_neg hdash, if_neg hdot, hi]

theorem decodeTokens_chain (toks : List (List Char)) :
    ∀ (prev : Int) (acc res : List Layer),
      decodeTokens toks prev acc = (res, none) →
      ∃ extra q, res = acc ++ extra ∧ chainOut prev extra = some q := by
  induction toks with
  | nil =>
    intro prev acc res h
    simp only [decodeTokens, Prod.mk.injEq] at h
    exact ⟨[], prev, by rw [← h.1]; simp, rfl⟩
  | cons m rest ih =>
    intro prev acc res h
    by_cases hdash : m = ['-']
    · simp only [decodeTokens, if_pos hdash] at h
      exact ih prev acc res h
    · by_cases hdot : '.' ∈ m
      · cases hf : pyFloat? m with
        | some v =>
          simp only [decodeTokens, if_neg hdash, if_pos hdot, hf] at h
          obtain ⟨extra, q, he, hc⟩ := ih prev (acc ++ [poolLayerOf v]) res h
          refine ⟨poolLayerOf v :: extra, q, by rw [he]; simp, ?_⟩
          rw [chainOut_poolLayerOf]
          exact hc
        | none =>
          simp only [decodeTokens, if_neg hdash, if_pos hdot, hf, Prod.mk.injEq] at h
          exact absurd h.2 (by simp)
      · cases hi : pyInt? m with
        | some k =>
          simp only [decodeTokens, if_neg hdash, if_neg hdot, hi] at h
          obtain ⟨extra, q, he, hc⟩ := ih k (acc ++ [Layer.conv ⟨prev, k⟩]) res h
          refine ⟨Layer.conv ⟨prev, k⟩ :: extra, q, by rw [he]; simp, ?_⟩
          simp only [chainOut, if_pos rfl]
          exact hc
        | none =>
          simp only [decodeTokens, if_neg hdash, if_neg hdot, hi, Prod.mk.injEq] at h
          exact absurd h.2 (by simp)

theorem decodeTokens_convPairs (toks : List (List Char)) :
    ∀ (prev : Int) (acc res : List Layer),
      decodeTokens toks prev acc = (res, none) →
      convPairs res = convPairs acc ++ chainFrom prev (intVals toks) := by
  induction toks with
  | nil =>
    intro prev acc res h
    simp only [decodeTokens, Prod.mk.injEq] at h
    rw [← h.1]
    simp [intVals, chainFrom]
  | cons m rest ih =>
    intro prev acc res h
    by_cases hdash : m = ['-']
    · simp only [decodeTokens, if_pos hdash] at h
      have := ih prev acc res h
      rw [this]
      simp [intVals, List.filterMap_cons, hdash]
    · by_cases hdot : '.' ∈ m
      · cases hf : pyFloat? m with
        | some v =>
          simp only [decodeTokens, if_neg hdash, if_pos hdot, hf] at h
          have := ih prev (acc ++ [poolLayerOf v]) res h
          rw [this]
          have hpool : convPairs [poolLayerOf v] = [] := by
            unfold poolLayerOf
            split <;> rfl
          simp only [convPairs, List.filterMap_append] at *
          rw [show (List.filterMap _ [poolLayerOf v] : List (Int × Int)) = [] from hpool]
          simp [intVals, List.filterMap_cons, if_neg hdash, hdot]
        | none =>
          simp only [decodeTokens, if_neg hdash, if_pos hdot, hf, Prod.mk.injEq] at h
          exact absurd h.2 (by simp)
      · cases hi : pyInt? m with
        | some k =>
          simp only [decodeTokens, if_neg hdash, if_neg hdot, hi] at h
          have := ih k (acc ++ [Layer.conv ⟨prev, k⟩]) res h
          rw [this]
          simp only [convPairs, List.filterMap_append, List.filterMap_cons] at *
          simp [intVals, List.filterMap_cons, if_neg hdash, hdot, hi, chainFrom]
        | none =>
          simp only [decodeTokens, if_neg hdash, if_neg hdot, hi, Prod.mk.injEq] at h
          exact absurd h.2 (by simp)

theorem decodeTokens_pool_params (toks : List (List Char)) :
    ∀ (prev : Int) (acc res : List Layer) (o : Option DecodeError),
      decodeTokens toks prev acc = (res, o) →
      ∀ kind k st p, Layer.pool kind k st p ∈ res →
        Layer.pool kind k st p ∈ acc ∨
          (k = kernel_size ∧ st = pool_stride ∧ p = (1, 1)) := by
  induction toks with
  | nil =>
    intro prev acc res o h kind k st p hmem
    simp only [decodeTokens, Prod.mk.injEq] at h
    rw [← h.1] at hmem
    exact Or.inl hmem
  | cons m rest ih =>
    intro prev acc res o h kind k st p hmem
    by_cases hdash : m = ['-']
    · simp only [decodeTokens, if_pos hdash] at h
      exact ih prev acc res o h kind k st p hmem
    · by_cases hdot : '.' ∈ m
      · cases hf : pyFloat? m with
        | some v =>
          simp only [decodeTokens, if_neg hdash, if_pos hdot, hf] at h
          rcases ih prev (acc ++ [poolLayerOf v]) res o h kind k st p hmem with hacc | hp
          · rcases List.mem_append.mp hacc with h1 | h2
            · exact Or.inl h1
            · right
              simp only [List.mem_singleton] at h2
              unfold poolLayerOf at h2
              split at h2 <;>
                · injection h2.symm with h2a h2b h2c h2d
                  exact ⟨h2b.symm, h2c.symm, h2d.symm⟩
          · exact Or.inr hp
        | none =>
          simp only [decodeTokens, if_neg hdash, if_pos hdot, hf, Prod.mk.injEq] at h
          rw [← h.1] at hmem
          exact Or.inl hmem
      · cases hi : pyInt? m with
        | some kk =>
          simp only [decodeTokens, if_neg hdash, if_neg hdot, hi] at h
          rcases ih kk (acc ++ [Layer.conv ⟨prev, kk⟩]) res o h kind k st p hmem with hacc | hp
          · rcases List.mem_append.mp hacc with h1 | h2
            · exact Or.inl h1
            · simp only [List.mem_singleton] at h2
              exact absurd h2 (by simp)
          · exact Or.inr hp
        | none =>
          simp only [decodeTokens, if_neg hdash, if_neg hdot, hi, Prod.mk.injEq] at h
          rw [← h.1] at hmem
          exact Or.inl hmem

theorem decodeTokens_malformed (toks : List (List Char)) :
    ∀ (prev : Int) (acc : List Layer),
      toks.any tokenMalformed = true →
      ∃ t, (decodeTokens toks prev acc).2 = some (DecodeError.malformedToken t) ∧
        tokenMalformed t = true := by
  induction toks with
  | nil =>
    intro prev acc h
    simp at h
  | cons m rest ih =>
    intro prev acc hany
    by_cases hdash : m = ['-']
    · have hm : tokenMalformed m = false := by simp [tokenMalformed, hdash]
      have hrest : rest.any tokenMalformed = true := by
        simp only [List.any_cons, hm, Bool.false_or] at hany
        exact hany
      simpa [decodeTokens, hdash] using ih prev acc hrest
    · by_cases hdot : '.' ∈ m
      · cases hf : pyFloat? m with
        | some v =>
          have hm : tokenMalformed m = false := by
            simp [tokenMalformed, hdash, hdot, hf]
          have hrest : rest.any tokenMalformed = true := by
            simp only [List.any_cons, hm, Bool.false_or] at hany
            exact hany
          have := ih prev (acc ++ [poolLayerOf v]) hrest
          simpa [decodeTokens, if_neg hdash, if_pos hdot, hf] using this
        | none =>
          refine ⟨m, ?_, ?_⟩
          · simp [decodeTokens, if_neg hdash, if_pos hdot, hf]
          · simp [tokenMalformed, hdash, hdot, hf]
      · cases hi : pyInt? m with
        | some k =>
          have hm : tokenMalformed m = false := by
            simp [tokenMalformed, hdash, hdot, hi]
          have hrest : rest.any tokenMalformed = true := by
            simp only [List.any_cons, hm, Bool.false_or] at hany
            exact hany
          have := ih k (acc ++ [Layer.conv ⟨prev, k⟩]) hrest
          simpa [decodeTokens, if_neg hdash, if_neg hdot, hi] using this
        | none =>
          refine ⟨m, ?_, ?_⟩
          · simp [decodeTokens, if_neg hdash, if_neg hdot, hi]
          · simp [tokenMalformed, hdash, hdot, hi]

theorem chainOut_pos (ls : List Layer) :
    ∀ (c q : Int), chainOut c ls = some q → 0 < c →
      (∀ l ∈ ls, l.convOutPositive = true) → 0 < q := by
  induction ls with
  | nil =>
    intro c q h hc _
    simp only [chainOut, Option.some.injEq] at h
    rw [← h]
    exact hc
  | cons l rest ih =>
    intro c q h hc hpos
    cases l with
    | conv b =>
      simp only [chainOut] at h
      by_cases hcin : b.c_in = c
      · rw [if_pos hcin] at h
        have hb : 0 < b.c_out := by
          have := hpos (Layer.conv b) (List.mem_cons_self _ _)
          simpa [Layer.convOutPositive] using this
        exact ih b.c_out q h hb (fun x hx => hpos x (List.mem_cons_of_mem _ hx))
      · rw [if_neg hcin] at h
        exact Option.noConfusion h
    | pool kind k st p =>
      simp only [chainOut] at h
      exact ih c q h hc (fun x hx => hpos x (List.mem_cons_of_mem _ hx))

theorem netShape_chain (ls : List Layer) :
    ∀ (q : Int) (n c h w : Nat),
      chainOut (c : Int) ls = some q →
      (∀ l ∈ ls, l.convOutPositive = true) →
      0 < h → 0 < w →
      ∃ cf hf wf, netForwardShape ls [n, c, h, w] = .ok [n, cf, hf, wf] ∧
        (cf : Int) = q ∧ 0 < hf ∧ 0 < wf := by
  induction ls with
  | nil =>
    intro q n c h w hchain hpos hh hw
    simp only [chainOut, Option.some.injEq] at hchain
    exact ⟨c, h, w, rfl, hchain, hh, hw⟩
  | cons l rest ih =>
    intro q n c h w hchain hpos hh hw
    cases l with
    | conv b =>
      simp only [chainOut] at hchain
      by_cases hcin : b.c_in = (c : Int)
      · rw [if_pos hcin] at hchain
        have hb : 0 < b.c_out := by
          have := hpos (Layer.conv b) (List.mem_cons_self _ _)
          simpa [Layer.convOutPositive] using this
        have hcast : ((b.c_out.toNat : Nat) : Int) = b.c_out :=
          Int.toNat_of_nonneg (le_of_lt hb)
        have hchain2 : chainOut ((b.c_out.toNat : Nat) : Int) rest = some q := by
          rw [hcast]
          exact hchain
        obtain ⟨cf, hfv, wfv, hnet, hcf, hhf, hwf⟩ :=
          ih q n b.c_out.toNat (h + 2) (w + 2) hchain2
            (fun x hx => hpos x (List.mem_cons_of_mem _ hx))
            (Nat.succ_pos _) (Nat.succ_pos _)
        refine ⟨cf, hfv, wfv, ?_, hcf, hhf, hwf⟩
        simp only [netForwardShape, Layer.outShape, ConvolutionBlock.forward,
          if_pos hcin.symm, convBlockOutSpatial_eq]
        exact hnet
      · rw [if_neg hcin] at hchain
        exact Option.noConfusion hchain
    | pool kind k st p =>
      simp only [chainOut] at hchain
      obtain ⟨cf, hfv, wfv, hnet, hcf, hhf, hwf⟩ :=
        ih q n c (pool2dOutDim h p.1 k.1 st.1) (pool2dOutDim w p.2 k.2 st.2) hchain
          (fun x hx => hpos x (List.mem_cons_of_mem _ hx))
          (Nat.succ_pos _) (Nat.succ_pos _)
      refine ⟨cf, hfv, wfv, ?_, hcf, hhf, hwf⟩
      simp only [netForwardShape, Layer.outShape]
      exact hnet

/-- C3: for every encoding string on which decoding succeeds, the first
element of the decoded layer list is the stem, a convolution block with
input channel count 3 and output channel count 16, present regardless of
the encoding's content. -/
theorem c3_stem_first (enc : String) (layers : List Layer)
    (hdec : decode enc = .ok layers) :
    layers.head? = some (Layer.conv ⟨3, 16⟩) := by
  have hrun := decode_ok_run enc layers hdec
  unfold runDecode at hrun
  obtain ⟨extra, q, he, _⟩ :=
    decodeTokens_chain (splitOnChar '-' enc.toList) 16 [Layer.conv ⟨3, 16⟩]
      layers hrun
  rw [he]
  rfl

/-- Witness for `c3_stem_first` at the concrete encoding `"32"`. -/
theorem c3_stem_first_witness :
    ([Layer.conv ⟨3, 16⟩, Layer.conv ⟨16, 32⟩] : List Layer).head? =
      some (Layer.conv ⟨3, 16⟩) :=
  c3_stem_first "32" [Layer.conv ⟨3, 16⟩, Layer.conv ⟨16, 32⟩] (by decide)

/-- C4: for every encoding on which decoding succeeds, the convolution
blocks' `(c_in, c_out)` pairs are exactly the stem `(3, 16)` followed by the
chain `16 → a → b → ...` over the integer tokens in order, regardless of any
interleaved float (pooling) tokens. -/
theorem c4_channel_chain (enc : String) (layers : List Layer)
    (hdec : decode enc = .ok layers) :
    convPairs layers =
      (3, 16) :: chainFrom 16 (intVals (splitOnChar '-' enc.toList)) := by
  have hrun := decode_ok_run enc layers hdec
  unfold runDecode at hrun
  have := decodeTokens_convPairs (splitOnChar '-' enc.toList) 16
    [Layer.conv ⟨3, 16⟩] layers hrun
  rw [this]
  rfl

/-- Witness for `c4_channel_chain` at the concrete encoding `"32-0.9-64"`. -/
theorem c4_channel_chain_witness :
    convPairs [Layer.conv ⟨3, 16⟩, Layer.conv ⟨16, 32⟩,
        Layer.pool .MAX (2, 2) (2, 2) (1, 1), Layer.conv ⟨32, 64⟩] =
      (3, 16) :: chainFrom 16 (intVals (splitOnChar '-' "32-0.9-64".toList)) :=
  c4_channel_chain "32-0.9-64"
    [Layer.conv ⟨3, 16⟩, Layer.conv ⟨16, 32⟩,
      Layer.pool .MAX (2, 2) (2, 2) (1, 1), Layer.conv ⟨32, 64⟩]
    (by
      simp [decode, runDecode, splitOnChar, decodeTokens, pyInt?, pyFloat?,
        allDigits, digitsVal, poolLayerOf, kernel_size, pool_stride]
      norm_num)

/-- C5: for every input spatial size, the explicit padding step of a
`ConvolutionBlock` adds exactly one pixel on each side of each spatial axis
(total padding 2, split 1/1), and after the explicit pad plus the
convolution's internal padding of 1 with the fixed 3x3 kernel and stride 1,
the block's output spatial size is `(H+2, W+2)`. -/
theorem c5_padding_output_size (H W : Nat) :
    pad_along H = 2 ∧ padSplit H = (1, 1) ∧ convBlockOutSpatial H = H + 2 ∧
    pad_along W = 2 ∧ padSplit W = (1, 1) ∧ convBlockOutSpatial W = W + 2 :=
  ⟨pad_along_eq H, padSplit_eq H, convBlockOutSpatial_eq H,
    pad_along_eq W, padSplit_eq W, convBlockOutSpatial_eq W⟩

/-- C9: `ConvolutionBlock.forward` fails with a shape error whenever the
input is not rank-4, fails with a channel-mismatch error whenever the rank-4
input's channel count differs from the configured `c_in`, and succeeds
(producing the `[n, c_out, h+2, w+2]` output) otherwise. -/
theorem c9_convblock_forward_errors (blk : ConvolutionBlock) (s : List Nat) :
    (s.length ≠ 4 → blk.forward s = .error .shapeError) ∧
    (∀ n c h w : Nat, s = [n, c, h, w] →
      (((c : Int) ≠ blk.c_in) → blk.forward s = .error .channelMismatch) ∧
      (((c : Int) = blk.c_in) →
        blk.forward s = .ok [n, blk.c_out.toNat, h + 2, w + 2])) := by
  constructor
  · intro hlen
    match s with
    | [] => rfl
    | [a] => rfl
    | [a, b] => rfl
    | [a, b, c] => rfl
    | [a, b, c, d] => exact absurd rfl hlen
    | a :: b :: c :: d :: e :: t => rfl
  · intro n c h w hs
    subst hs
    constructor
    · intro hne
      simp [ConvolutionBlock.forward, if_neg hne]
    · intro heq
      simp [ConvolutionBlock.forward, if_pos heq, convBlockOutSpatial_eq]

/-- Witness for `c9_convblock_forward_errors`: each branch at a concrete
block and input shape. -/
theorem c9_convblock_forward_errors_witness :
    ((ConvolutionBlock.mk 3 16).forward [1, 2, 3] = .error .shapeError) ∧
    ((ConvolutionBlock.mk 3 16).forward [1, 4, 5, 5] = .error .channelMismatch) ∧
    ((ConvolutionBlock.mk 3 16).forward [1, 3, 5, 5] = .ok [1, 16, 7, 7]) :=
  ⟨(c9_convblock_forward_errors ⟨3, 16⟩ [1, 2, 3]).1 (by decide),
   ((c9_convblock_forward_errors ⟨3, 16⟩ [1, 4, 5, 5]).2 1 4 5 5 rfl).1 (by decide),
   ((c9_convblock_forward_errors ⟨3, 16⟩ [1, 3, 5, 5]).2 1 3 5 5 rfl).2 (by decide)⟩

/-- C10: every element of the value returned by the forward path is
nonnegative, because the final operation is the rectified-linear activation
(and the constructed softmax member is never applied on this path). -/
theorem c10_output_nonnegative (fcW : Fin 10 → Nat → ℚ) (fcB : Fin 10 → ℚ)
    (c h w : Nat) (netOut : Nat → Nat → Nat → Nat → ℚ) (i : Nat)
    (j : Fin 10) :
    0 ≤ modelForwardValue fcW fcB c h w netOut i j :=
  le_max_left 0 _

/-- C2: for every token containing a decimal point that parses as a float of
value `v`, the decode step appends exactly one pooling layer with kernel
2x2, stride 2x2, padding 1x1 — max-pooling if `v > 0.5`, else
average-pooling — and in particular `"32-0.9-64"` decodes to
`[Conv(3→16), Conv(16→32), MaxPool, Conv(32→64)]`. -/
theorem c2_float_token_pooling :
    (∀ (m : List Char) (v : ℚ) (prev : Int) (acc : List Layer)
        (rest : List (List Char)),
      '.' ∈ m → pyFloat? m = some v →
      decodeTokens (m :: rest) prev acc =
        decodeTokens rest prev
          (acc ++ [Layer.pool (if 1 / 2 < v then .MAX else .AVG)
            (2, 2) (2, 2) (1, 1)])) ∧
    decode "32-0.9-64" = .ok [Layer.conv ⟨3, 16⟩, Layer.conv ⟨16, 32⟩,
      Layer.pool .MAX (2, 2) (2, 2) (1, 1), Layer.conv ⟨32, 64⟩] := by
  constructor
  · intro m v prev acc rest hdot hf
    have hdash : ¬m = ['-'] := by
      intro hm
      rw [hm] at hdot
      simp at hdot
    simp only [decodeTokens, if_neg hdash, if_pos hdot, hf]
    have hpl : poolLayerOf v =
        Layer.pool (if 1 / 2 < v then .MAX else .AVG) (2, 2) (2, 2) (1, 1) := by
      unfold poolLayerOf kernel_size pool_stride
      by_cases hv : (1 : ℚ) / 2 < v
      · rw [if_pos hv, if_pos hv]
      · rw [if_neg hv, if_neg hv]
    rw [hpl]
  · simp [decode, runDecode, splitOnChar, decodeTokens, pyInt?, pyFloat?,
      allDigits, digitsVal, poolLayerOf, kernel_size, pool_stride]
    norm_num

/-- Witness for `c2_float_token_pooling` at the concrete token `"0.9"`. -/
theorem c2_float_token_pooling_witness :
    decodeTokens [['0', '.', '9']] 16 [] =
      decodeTokens [] 16
        ([] ++ [Layer.pool (if 1 / 2 < (9 / 10 : ℚ) then .MAX else .AVG)
          (2, 2) (2, 2) (1, 1)]) :=
  c2_float_token_pooling.1 ['0', '.', '9'] (9 / 10) 16 [] []
    (by decide) (by simp [pyFloat?, allDigits, digitsVal])

/-- C6: every pooling layer in a decoded layer list carries kernel 2x2,
stride 2x2 and padding 1x1, and its shape-level evaluation on spatial size
`S` follows the law `floor((S + 2*1 - 2) / 2) + 1` on each axis. -/
theorem c6_pool_output_formula (enc : String) (layers : List Layer)
    (kind : PoolKind) (k st p : Nat × Nat)
    (hdec : decode enc = .ok layers)
    (hmem : Layer.pool kind k st p ∈ layers) :
    k = (2, 2) ∧ st = (2, 2) ∧ p = (1, 1) ∧
    ∀ n c h w : Nat, (Layer.pool kind k st p).outShape [n, c, h, w] =
      .ok [n, c, (h + 2 * 1 - 2) / 2 + 1, (w + 2 * 1 - 2) / 2 + 1] := by
  have hrun := decode_ok_run enc layers hdec
  unfold runDecode at hrun
  have hparams := decodeTokens_pool_params (splitOnChar '-' enc.toList) 16
    [Layer.conv ⟨3, 16⟩] layers none hrun kind k st p hmem
  have hkst : k = (2, 2) ∧ st = (2, 2) ∧ p = (1, 1) := by
    rcases hparams with hacc | hp
    · simp at hacc
    · exact ⟨by rw [hp.1]; rfl, by rw [hp.2.1]; rfl, hp.2.2⟩
  obtain ⟨hk, hst, hp⟩ := hkst
  subst hk
  subst hst
  subst hp
  refine ⟨rfl, rfl, rfl, ?_⟩
  intro n c h w
  simp [Layer.outShape, pool2dOutDim]

/-- Witness for `c6_pool_output_formula` at the concrete encoding `"0.9"`
and input spatial size 5x7. -/
theorem c6_pool_output_formula_witness :
    (Layer.pool .MAX (2, 2) (2, 2) (1, 1)).outShape [1, 16, 5, 7] =
      .ok [1, 16, (5 + 2 * 1 - 2) / 2 + 1, (7 + 2 * 1 - 2) / 2 + 1] :=
  (c6_pool_output_formula "0.9"
    [Layer.conv ⟨3, 16⟩, Layer.pool .MAX (2, 2) (2, 2) (1, 1)]
    .MAX (2, 2) (2, 2) (1, 1)
    (by
      simp [decode, runDecode, splitOnChar, decodeTokens, pyFloat?,
        allDigits, digitsVal, poolLayerOf, kernel_size, pool_stride]
      norm_num)
    (by simp)).2.2.2 1 16 5 7

/-- C7: empty tokens are NOT skipped by `_decode`, contrary to the spec: the
guard of line 111 compares each token to the literal dash, which
`str.split('-')` can never produce (third conjunct), so the empty token
reaches `int('')` and raises.  Decoding the empty encoding therefore fails
after appending only the stem, and a doubled delimiter likewise fails. -/
theorem c7_empty_token_not_skipped :
    runDecode "" = ([Layer.conv ⟨3, 16⟩], some (DecodeError.malformedToken [])) ∧
    runDecode "32--64" = ([Layer.conv ⟨3, 16⟩, Layer.conv ⟨16, 32⟩],
      some (DecodeError.malformedToken [])) ∧
    ∀ cs : List Char,
      (splitOnChar '-' cs).all (fun seg => !seg.contains '-') = true := by
  refine ⟨by decide, by decide, ?_⟩
  intro cs
  rw [List.all_eq_true]
  intro seg hseg
  have h2 := splitOnChar_not_contains '-' cs seg hseg
  show (!seg.contains '-') = true
  rw [h2]
  rfl

/-- C8 counterexample: decoding `"abc"` fails, but the layer list is NOT
restored to its pre-decode state (the empty list): the stem has already
been appended when the exception is raised. -/
theorem c8_partial_mutation_counterexample :
    runDecode "abc" =
      ([Layer.conv ⟨3, 16⟩], some (DecodeError.malformedToken ['a', 'b', 'c'])) ∧
    ([Layer.conv ⟨3, 16⟩] : List Layer) ≠ ([] : List Layer) :=
  ⟨by decide, by decide⟩

/-- C8 (amended): for every encoding containing a malformed token, decoding
fails with a `DecodeError` recording a malformed token, and the layer list
is left partially mutated: it holds the stem (plus any layers decoded before
the failure) rather than its pre-decode state. -/
theorem c8_malformed_token_error (enc : String)
    (hbad : (splitOnChar '-' enc.toList).any tokenMalformed = true) :
    (∃ t, (runDecode enc).2 = some (DecodeError.malformedToken t) ∧
      tokenMalformed t = true) ∧
    (runDecode enc).1.head? = some (Layer.conv ⟨3, 16⟩) := by
  constructor
  · unfold runDecode
    exact decodeTokens_malformed (splitOnChar '-' enc.toList) 16
      [Layer.conv ⟨3, 16⟩] hbad
  · obtain ⟨extra, he⟩ := decodeTokens_extends (splitOnChar '-' enc.toList) 16
      [Layer.conv ⟨3, 16⟩]
    unfold runDecode
    rw [he]
    rfl

/-- Witness for `c8_malformed_token_error` at the concrete encoding `"abc"`. -/
theorem c8_malformed_token_error_witness :
    (∃ t, (runDecode "abc").2 = some (DecodeError.malformedToken t) ∧
      tokenMalformed t = true) ∧
    (runDecode "abc").1.head? = some (Layer.conv ⟨3, 16⟩) :=
  c8_malformed_token_error "abc" (by decide)

/-- C1 (amended): for every encoding on which decoding succeeds and whose
decoded convolution blocks all have positive output channel count
(equivalently: every integer token is positive), forward evaluation on an
input of shape `[N, 3, H, W]` with `H, W ≥ 1` returns shape `[N, 10]`. -/
theorem c1_forward_output_shape (enc : String) (layers : List Layer)
    (n h w : Nat) (hdec : decode enc = .ok layers)
    (hpos : ∀ l ∈ layers, l.convOutPositive = true)
    (hh : 0 < h) (hw : 0 < w) :
    modelForwardShape layers [n, 3, h, w] = .ok [n, 10] := by
  have hrun := decode_ok_run enc layers hdec
  unfold runDecode at hrun
  obtain ⟨extra, q, he, hchain⟩ :=
    decodeTokens_chain (splitOnChar '-' enc.toList) 16 [Layer.conv ⟨3, 16⟩]
      layers hrun
  have hchainAll : chainOut ((3 : Nat) : Int) layers = some q := by
    rw [he]
    show chainOut ((3 : Nat) : Int) (Layer.conv ⟨3, 16⟩ :: extra) = some q
    simp only [chainOut]
    rw [if_pos (by decide : (⟨3, 16⟩ : ConvolutionBlock).c_in = ((3 : Nat) : Int))]
    exact hchain
  have hq : 0 < q :=
    chainOut_pos layers ((3 : Nat) : Int) q hchainAll (by decide) hpos
  obtain ⟨cf, hfv, wfv, hnet, hcf, hhf, hwf⟩ :=
    netShape_chain layers q n 3 h w hchainAll hpos hh hw
  have hcfpos : 0 < cf := by
    have h0 : (0 : Int) < (cf : Int) := by
      rw [hcf]
      exact hq
    exact_mod_cast h0
  have hdim : 0 < cf * hfv * wfv := Nat.mul_pos (Nat.mul_pos hcfpos hhf) hwf
  have hdvd : cf * hfv * wfv ∣ n * cf * hfv * wfv := ⟨n, by ring⟩
  have harith : n * cf * hfv * wfv / (cf * hfv * wfv) = n := by
    rw [show n * cf * hfv * wfv = n * (cf * hfv * wfv) by ring]
    exact Nat.mul_div_cancel n hdim
  have hgoal : modelForwardShape layers [n, 3, h, w] =
      if 0 < cf * hfv * wfv ∧ cf * hfv * wfv ∣ n * cf * hfv * wfv then
        Except.ok [n * cf * hfv * wfv / (cf * hfv * wfv), 10]
      else Except.error Err.viewError := by
    unfold modelForwardShape
    rw [hnet]
  rw [hgoal, if_pos ⟨hdim, hdvd⟩, harith]

/-- Witness for `c1_forward_output_shape` at the concrete encoding `"32"`
and input shape `[2, 3, 4, 5]`. -/
theorem c1_forward_output_shape_witness :
    modelForwardShape [Layer.conv ⟨3, 16⟩, Layer.conv ⟨16, 32⟩] [2, 3, 4, 5] =
      .ok [2, 10] :=
  c1_forward_output_shape "32" [Layer.conv ⟨3, 16⟩, Layer.conv ⟨16, 32⟩] 2 4 5
    (by decide) (by decide) (by decide) (by decide)

/-- C1 counterexample: the encoding `"0"` is valid (decoding succeeds), yet
forward evaluation fails for EVERY input spatial size — no minimum on `H`
and `W` rescues it — because the zero-channel block makes the flattened
dimension 0 and `view(-1, 0)` fails. -/
theorem c1_zero_token_counterexample :
    decode "0" = .ok [Layer.conv ⟨3, 16⟩, Layer.conv ⟨16, 0⟩] ∧
    ¬ ∃ minH minW : Nat, ∀ n h w : Nat, minH ≤ h → minW ≤ w →
      modelForwardShape [Layer.conv ⟨3, 16⟩, Layer.conv ⟨16, 0⟩] [n, 3, h, w] =
        .ok [n, 10] := by
  constructor
  · decide
  · rintro ⟨mh, mw, hall⟩
    have h1 := hall 1 mh mw le_rfl le_rfl
    have h2 : modelForwardShape [Layer.conv ⟨3, 16⟩, Layer.conv ⟨16, 0⟩]
        [1, 3, mh, mw] = .error .viewError := by
      simp [modelForwardShape, netForwardShape, Layer.outShape,
        ConvolutionBlock.forward, convBlockOutSpatial_eq]
    rw [h2] at h1
    exact Except.noConfusion h1

end GAC
